import Mathlib

/-!
Shallow embedding of PayPal2CSV.py (PayPal PDF statement parser).

Text is modelled as `List Char`.  Python string operations (`strip`,
`split`, `lower`, substring search) and the regular expressions used by
the source are embedded as executable Lean functions; regex matching
follows Python `re` semantics (leftmost match, greedy quantifiers with
backtracking, ordered alternation, non-overlapping `findall`/`sub`
scanning).  ASCII character classes are used for `\d`, `\w`, `\s`,
`[A-Z]`, `[a-z]`, matching the statement-text inputs of the program.
-/

namespace PayPal2CSV

abbrev LC := List Char

/-- Python whitespace (`str.split`, `str.strip`, regex `\s`). -/
def pySpace (c : Char) : Bool :=
  c == ' ' || c == '\t' || c == '\n' || c == '\x0d' || c == '\x0b' || c == '\x0c'

/-- `str.lower()`. -/
def lowerL (s : LC) : LC := s.map Char.toLower

/-- `str.strip()` (whitespace from both ends). -/
def pyStripWs (s : LC) : LC :=
  ((s.dropWhile pySpace).reverse.dropWhile pySpace).reverse

/-- characters of `strip(' |,.-•')` in `PayeeExtractor._clean_text`. -/
def stripSet (c : Char) : Bool :=
  c == ' ' || c == '|' || c == ',' || c == '.' || c == '-' || c == '•'

/-- `str.strip(' |,.-•')`. -/
def stripPunct (s : LC) : LC :=
  ((s.dropWhile stripSet).reverse.dropWhile stripSet).reverse

/-- helper for `pySplit`: accumulates the current word (reversed). -/
def pySplitAux : LC → LC → List LC
  | [], acc => if acc = [] then [] else [acc.reverse]
  | c :: cs, acc =>
    if pySpace c then
      if acc = [] then pySplitAux cs [] else acc.reverse :: pySplitAux cs []
    else pySplitAux cs (c :: acc)

/-- `str.split()` with no argument: split on whitespace runs, no empty words. -/
def pySplit (s : LC) : List LC := pySplitAux s []

/-- helper for `collapseWs`; the flag records whether we are inside a
whitespace run that has already emitted its single space. -/
def collapseWsAux : LC → Bool → LC
  | [], _ => []
  | c :: cs, inWs =>
    if pySpace c then
      if inWs then collapseWsAux cs true else ' ' :: collapseWsAux cs true
    else c :: collapseWsAux cs false

/-- `re.sub(r'\s+', ' ', s)`: each maximal whitespace run becomes one space. -/
def collapseWs (s : LC) : LC := collapseWsAux s false

/-- substring test (`pat in s` after any lowering done by the caller). -/
def isSubL (pat : LC) : LC → Bool
  | [] => pat.isEmpty
  | c :: cs => pat.isPrefixOf (c :: cs) || isSubL pat cs

/-- index of the first occurrence (`str.find`), callers check `isSubL` first. -/
def idxSub (pat : LC) : LC → Nat
  | [] => 0
  | c :: cs => if pat.isPrefixOf (c :: cs) then 0 else idxSub pat cs + 1

/-- `pat.lower() in text.lower()`. -/
def containsCI (text pat : LC) : Bool := isSubL (lowerL pat) (lowerL text)

/-- `' '.join(ws)`. -/
def joinSp : List LC → LC
  | [] => []
  | [w] => w
  | w :: ws => w ++ ' ' :: joinSp ws

/-! ## The amount regular expression

Parser: `[-+]?\d{1,3}(?:,\d{3})*\.\d{2}`; cleaner adds `\$?` after the
sign.  A match attempt at a position returns the match length. -/

/-- `\.\d{2}` at the current position. -/
def dotTail : LC → Option Nat
  | '.' :: a :: b :: _ => if a.isDigit && b.isDigit then some 3 else none
  | _ => none

/-- `(?:,\d{3})*\.\d{2}`: greedily consume comma groups, backtracking to
fewer groups when the tail fails. -/
def commaTail : LC → Option Nat
  | ',' :: a :: b :: c :: rest =>
    if a.isDigit && b.isDigit && c.isDigit then
      match commaTail rest with
      | some n => some (n + 4)
      | none => dotTail (',' :: a :: b :: c :: rest)
    else dotTail (',' :: a :: b :: c :: rest)
  | cs => dotTail cs

/-- `\d{1,3}(?:,\d{3})*\.\d{2}`: greedy `\d{1,3}` tries 3, then 2, then 1
leading digits. -/
def digitsAmount : LC → Option Nat
  | a :: b :: c :: rest =>
    if a.isDigit then
      if b.isDigit then
        if c.isDigit then
          match commaTail rest with
          | some n => some (3 + n)
          | none =>
            match commaTail (c :: rest) with
            | some n => some (2 + n)
            | none => (commaTail (b :: c :: rest)).map (fun n => 1 + n)
        else
          match commaTail (c :: rest) with
          | some n => some (2 + n)
          | none => (commaTail (b :: c :: rest)).map (fun n => 1 + n)
      else (commaTail (b :: c :: rest)).map (fun n => 1 + n)
    else none
  | _ => none

/-- `\$?` (only in the cleaner's pattern) followed by the digit core.  If
the optional `$` is taken and the core fails there is no other viable
alternative (a digit cannot be `$`), so the attempt fails. -/
def amountNoSign (dollar : Bool) (cs : LC) : Option Nat :=
  match cs with
  | c :: rest =>
    if dollar && c == '$' then (digitsAmount rest).map (fun n => n + 1)
    else digitsAmount cs
  | [] => none

/-- `[-+]?` then the rest of the amount pattern at this position.  As with
`$`, a consumed sign admits no alternative on failure. -/
def amountAt (dollar : Bool) (cs : LC) : Option Nat :=
  match cs with
  | c :: _ =>
    if c == '-' || c == '+' then
      (amountNoSign dollar (cs.drop 1)).map (fun n => n + 1)
    else amountNoSign dollar cs
  | [] => none

/-- `re.findall` scan: leftmost non-overlapping matches; on failure the
scan advances one character.  Fuel equals the list length (every step
consumes at least one character). -/
def scanAm (dollar : Bool) : Nat → LC → List LC
  | 0, _ => []
  | _ + 1, [] => []
  | f + 1, c :: cs =>
    match amountAt dollar (c :: cs) with
    | some n => (c :: cs).take n :: scanAm dollar f ((c :: cs).drop n)
    | none => scanAm dollar f cs

/-- `AMOUNT_PATTERN.findall(s)` (`dollar := false` for the parser pattern,
`true` for the cleaner's). -/
def findallAm (dollar : Bool) (s : LC) : List LC := scanAm dollar s.length s

/-- `re.sub(pattern, '', s)` scan for the amount pattern. -/
def scanSubAm (dollar : Bool) : Nat → LC → LC
  | 0, s => s
  | _ + 1, [] => []
  | f + 1, c :: cs =>
    match amountAt dollar (c :: cs) with
    | some n => scanSubAm dollar f ((c :: cs).drop n)
    | none => c :: scanSubAm dollar f cs

/-- `AMOUNT_PATTERN.sub('', s)` / the cleaner's amount removal. -/
def subAm (dollar : Bool) (s : LC) : LC := scanSubAm dollar s.length s

/-! ## The ID-label regular expression

`re.sub(r'\b(ID|Ref ID|Individual ID):\s*\S+', '', s, flags=re.I)`. -/

/-- regex `\w`: `[A-Za-z0-9_]` (ASCII). -/
def isWordChar (c : Char) : Bool := c.isAlphanum || c == '_'

/-- case-insensitive literal prefix test; `pat` is pre-lowered. -/
def ciHasPfx (pat : LC) (cs : LC) : Bool := pat.isPrefixOf (lowerL cs)

/-- ordered alternation `(ID|Ref ID|Individual ID)` (case-insensitive);
returns the matched label length.  The three alternatives differ in their
second character, so first-match order cannot mask a later alternative. -/
def idLabel (cs : LC) : Option Nat :=
  if ciHasPfx [ 'i', 'd' ] cs then some 2
  else if ciHasPfx ('r' :: 'e' :: 'f' :: ' ' :: 'i' :: 'd' :: []) cs then some 6
  else if ciHasPfx ('i' :: 'n' :: 'd' :: 'i' :: 'v' :: 'i' :: 'd' :: 'u' :: 'a' :: 'l' :: ' ' :: 'i' :: 'd' :: []) cs then some 13
  else none

/-- one attempt of the ID pattern at a position; `prevW` is whether the
preceding character of the original string is a word character (for the
leading `\b`).  `\s*` then `\S+` are deterministic (maximal runs). -/
def idMatchAt (prevW : Bool) (cs : LC) : Option Nat :=
  if prevW then none
  else
    match idLabel cs with
    | none => none
    | some k =>
      match cs.drop k with
      | ':' :: rest =>
        let ws := rest.takeWhile pySpace
        let rest2 := rest.drop ws.length
        let val := rest2.takeWhile (fun c => !pySpace c)
        if val = [] then none else some (k + 1 + ws.length + val.length)
      | _ => none

/-- `re.sub` scan for the ID pattern, threading the previous original
character's word-ness for `\b`. -/
def scanSubId : Nat → Bool → LC → LC
  | 0, _, s => s
  | _ + 1, _, [] => []
  | f + 1, prevW, c :: cs =>
    match idMatchAt prevW (c :: cs) with
    | some n =>
      scanSubId f (isWordChar (((c :: cs).take n).getLastD c)) ((c :: cs).drop n)
    | none => c :: scanSubId f (isWordChar c) cs

/-- the ID-label substitution of `PayeeExtractor._clean_text`. -/
def subId (s : LC) : LC := scanSubId s.length false s

/-! ## PayeeExtractor -/

/-- `PayeeExtractor.NOISE_KEYWORDS` (all entries are lowercase in the
source, so membership tests compare against these literals). -/
def NOISE : List LC :=
  [ "paypal".toList, "balance".toList, "usd".toList, "id:".toList,
    "ref id:".toList, "individual id:".toList, "general".toList,
    "mastercard".toList, "debit".toList, "preapproved payment".toList,
    "bill user payment".toList ]

/-- `PayeeExtractor._clean_text`.  The all-noise test iterates over
`cleaned.lower().split()` (whose words are never empty, so the `if word`
filter of the source is vacuous); the keep-filter iterates over
`cleaned.split()` lowering each word. -/
def clean_text (text : LC) : LC :=
  let c1 := subAm true text
  let c2 := subId c1
  let c3 := stripPunct c2
  if (pySplit (lowerL c3)).all (fun w => NOISE.contains w) then []
  else
    let kept := (pySplit c3).filter (fun w => !NOISE.contains (lowerL w))
    collapseWs (pyStripWs (joinSp kept))

/-- `sum(1 for c in chunk if c.isupper())`. -/
def countUpper (s : LC) : Nat := (s.filter Char.isUpper).length

/-- `chunk[0].isupper()` (only evaluated on chunks of length ≥ 3). -/
def firstUpper : LC → Bool
  | c :: _ => c.isUpper
  | [] => false

/-- generic unanchored search: try the positional matcher at every
position, threading the previous character's word-ness for `\b`. -/
def searchP (p : Bool → LC → Bool) : Bool → LC → Bool
  | prevW, [] => p prevW []
  | prevW, c :: cs => p prevW (c :: cs) || searchP p (isWordChar c) cs

/-- `\b[A-Z][a-z]+,\s*[A-Z]{2}\b` at one position ("City, ST").  The
greedy `[a-z]+` and `\s*` runs are maximal and deterministic here. -/
def loc1At (prevW : Bool) (cs : LC) : Bool :=
  if prevW then false
  else
    match cs with
    | c :: rest =>
      c.isUpper &&
      (let low := rest.takeWhile Char.isLower
       decide (low ≠ []) &&
       (match rest.drop low.length with
        | ',' :: r2 =>
          let sp := r2.takeWhile pySpace
          (match r2.drop sp.length with
           | a :: b :: r3 =>
             a.isUpper && b.isUpper &&
             (match r3 with
              | [] => true
              | d :: _ => !isWordChar d)
           | _ => false)
        | _ => false))
    | [] => false

/-- `\b[A-Z]{2}\s*\d{5}\b` at one position ("ST 12345"). -/
def loc2At (prevW : Bool) (cs : LC) : Bool :=
  if prevW then false
  else
    match cs with
    | a :: b :: rest =>
      a.isUpper && b.isUpper &&
      (let sp := rest.takeWhile pySpace
       (match rest.drop sp.length with
        | d1 :: d2 :: d3 :: d4 :: d5 :: r3 =>
          d1.isDigit && d2.isDigit && d3.isDigit && d4.isDigit && d5.isDigit &&
          (match r3 with
           | [] => true
           | d :: _ => !isWordChar d)
        | _ => false))
    | _ => false

/-- `\b[A-Z]+\s+[A-Z]+` at one position (adjacent capitalized tokens). -/
def m1At (prevW : Bool) (cs : LC) : Bool :=
  if prevW then false
  else
    match cs with
    | c :: rest =>
      c.isUpper &&
      (let ups := rest.takeWhile Char.isUpper
       let r1 := rest.drop ups.length
       let sp := r1.takeWhile pySpace
       decide (sp ≠ []) &&
       (match r1.drop sp.length with
        | d :: _ => d.isUpper
        | [] => false))
    | [] => false

/-- `\bI-n\d+\b` at one position (invoice-style token). -/
def m2At (prevW : Bool) (cs : LC) : Bool :=
  if prevW then false
  else
    match cs with
    | 'I' :: '-' :: 'n' :: rest =>
      let ds := rest.takeWhile Char.isDigit
      decide (ds ≠ []) &&
      (match rest.drop ds.length with
       | [] => true
       | d :: _ => !isWordChar d)
    | _ => false

/-- `\b#\d+\b` at one position.  `#` is not a word character, so the
leading `\b` requires the preceding character to be a word character. -/
def m3At (prevW : Bool) (cs : LC) : Bool :=
  if !prevW then false
  else
    match cs with
    | '#' :: rest =>
      let ds := rest.takeWhile Char.isDigit
      decide (ds ≠ []) &&
      (match rest.drop ds.length with
       | [] => true
       | d :: _ => !isWordChar d)
    | _ => false

/-- `any(re.search(p, chunk) for p in location_patterns)`. -/
def hasLoc (chunk : LC) : Bool :=
  searchP loc1At false chunk || searchP loc2At false chunk

/-- `any(re.search(p, chunk) for p in merchant_patterns)`. -/
def hasMerch (chunk : LC) : Bool :=
  searchP m1At false chunk || searchP m2At false chunk || searchP m3At false chunk

/-- words of `chunk.lower().split()` that are noise keywords. -/
def noiseCount (chunk : LC) : Nat :=
  ((pySplit (lowerL chunk)).filter (fun w => NOISE.contains w)).length

/-- `PayeeExtractor._score_chunk`: the if/elif length ladder returns 0
immediately for chunks of length < 3 (`none`); otherwise the remaining
rules accumulate. -/
def score_chunk (chunk : LC) : Int :=
  let lenScore : Option Int :=
    if chunk.length > 10 then some 5
    else if chunk.length > 5 then some 2
    else if chunk.length < 3 then none
    else some 0
  match lenScore with
  | none => 0
  | some lb =>
    lb + (if firstUpper chunk then 3 else 0)
       + (if countUpper chunk ≥ 3 then 4 else 0)
       + (if hasLoc chunk then 6 else 0)
       + (if hasMerch chunk then 3 else 0)
       - 2 * (noiseCount chunk : Int)

/-- The scoring table exactly as the specification states it: reject
below length 3, otherwise an independent sum of bonuses and the noise
penalty. -/
def score_spec (chunk : LC) : Int :=
  if chunk.length < 3 then 0
  else
    (if chunk.length ≥ 11 then 5 else 0)
    + (if 6 ≤ chunk.length ∧ chunk.length ≤ 10 then 2 else 0)
    + (if firstUpper chunk then 3 else 0)
    + (if 3 ≤ countUpper chunk then 4 else 0)
    + (if hasLoc chunk then 6 else 0)
    + (if hasMerch chunk then 3 else 0)
    - 2 * (noiseCount chunk : Int)

/-- `PayeeExtractor.PAYEE_PREFIXES`, in source order (the order is the
priority). -/
def PAYEE_PFXS : List LC :=
  [ "Transaction:".toList, "Direct Deposit:".toList,
    "PreApproved Payment Bill User Payment:".toList,
    "Payment to:".toList, "Payment from:".toList ]

/-- the loop of `PayeeExtractor._extract_after_prefix`: for each label in
priority order, if it occurs case-insensitively, clean the text after its
first occurrence; return it when non-empty, otherwise keep looking. -/
def afterPfxLoop : List LC → LC → Option LC
  | [], _ => none
  | p :: ps, text =>
    if containsCI text p then
      let idx := idxSub (lowerL p) (lowerL text)
      let cleaned := clean_text (pyStripWs (text.drop (idx + p.length)))
      if cleaned = [] then afterPfxLoop ps text else some cleaned
    else afterPfxLoop ps text

/-- `PayeeExtractor._extract_after_prefix`. -/
def extractAfterPfx (text : LC) : Option LC := afterPfxLoop PAYEE_PFXS text

/-- `re.split(r'\s{2,}|[|•]', s)`: delimiters are runs of two or more
whitespace characters (maximal) or a single pipe/bullet; a single
whitespace character stays inside its chunk.  Fuel equals the length. -/
def splitChunksF : Nat → LC → LC → List LC
  | 0, acc, rest => [acc.reverse ++ rest]
  | _ + 1, acc, [] => [acc.reverse]
  | f + 1, acc, c :: cs =>
    if c == '|' || c == '•' then acc.reverse :: splitChunksF f [] cs
    else if pySpace c then
      match cs with
      | c2 :: _ =>
        if pySpace c2 then acc.reverse :: splitChunksF f [] (cs.dropWhile pySpace)
        else splitChunksF f (c :: acc) cs
      | [] => splitChunksF f (c :: acc) []
    else splitChunksF f (c :: acc) cs

/-- chunk splitting of `PayeeExtractor._extract_intelligent`. -/
def splitChunks (d : LC) : List LC := splitChunksF d.length [] d

/-- the scored-candidate list, in chunk (description) order: clean each
chunk, drop empties, keep strictly positive scores. -/
def scoredChunks (d : LC) : List (Int × LC) :=
  (splitChunks d).filterMap fun ch =>
    let c := clean_text ch
    if c = [] then none
    else
      let s := score_chunk c
      if s > 0 then some (s, c) else none

/-- stable descending insertion: an element moves before exactly the
strictly smaller scores, so equal scores keep their original order —
the behaviour of Python's stable `list.sort(reverse=True, key=score)`. -/
def insDesc (p : Int × LC) : List (Int × LC) → List (Int × LC)
  | [] => [p]
  | q :: qs => if p.1 ≥ q.1 then p :: q :: qs else q :: insDesc p qs

/-- stable sort by score, highest first (`scored_chunks.sort(reverse=True,
key=lambda x: x[0])`). -/
def sortDesc (l : List (Int × LC)) : List (Int × LC) := l.foldr insDesc []

/-- `PayeeExtractor._extract_intelligent`. -/
def extract_intelligent (d : LC) : LC :=
  match sortDesc (scoredChunks d) with
  | p :: _ => p.2
  | [] =>
    let fb := (clean_text d).take 80
    if fb = [] then "Unknown".toList else fb

/-- `PayeeExtractor.extract`. -/
def extract (d : LC) : LC :=
  if d = [] ∨ pyStripWs d = [] then "Unknown".toList
  else
    match extractAfterPfx d with
    | some payee => payee
    | none => extract_intelligent d

/-! ## PayPalPDFParser -/

/-- the `Transaction` dataclass; all fields are strings in the source. -/
structure Transaction where
  date : LC
  description : LC
  currency : LC
  amount : LC
  fees : LC
  total : LC
deriving DecidableEq, Repr

/-- `Transaction(date=d)` with the dataclass defaults. -/
def newTx (d : LC) : Transaction :=
  ⟨d, [], "USD".toList, "0.00".toList, "0.00".toList, "0.00".toList⟩

/-- `amounts[-1].replace(',', '')`. -/
def remCommas (s : LC) : LC := s.filter (fun c => c ≠ ',')

/-- `\d{1,2}/` with greedy backtracking (two digits need a following
slash; otherwise one digit and a slash). -/
def mdPart : LC → Option (LC × LC)
  | a :: b :: c :: rest =>
    if a.isDigit then
      if b.isDigit && c == '/' then some ([a, b], rest)
      else if b == '/' then some ([a], c :: rest)
      else none
    else none
  | a :: b :: rest =>
    if a.isDigit && b == '/' then some ([a], rest) else none
  | _ => none

/-- `\d{4}`. -/
def year4 : LC → Option (LC × LC)
  | a :: b :: c :: d :: rest =>
    if a.isDigit && b.isDigit && c.isDigit && d.isDigit then
      some ([a, b, c, d], rest)
    else none
  | _ => none

/-- `DATE_PATTERN.match(line)` for `^(\d{1,2}/\d{1,2}/\d{4})`: returns the
matched date substring and the remainder of the line. -/
def dateMatchL (s : LC) : Option (LC × LC) :=
  match mdPart s with
  | none => none
  | some (m, r1) =>
    match mdPart r1 with
    | none => none
    | some (d, r2) =>
      match year4 r2 with
      | none => none
      | some (y, rest) => some (m ++ '/' :: d ++ '/' :: y, rest)

/-- `s.all` whitespace: `\s*$` on a remainder / `^\s*$` on a line. -/
def allWs (s : LC) : Bool := s.all pySpace

/-- `re.search('^LIT\s*$', line, re.I)` for an anchored literal pattern;
`pat` is pre-lowered. -/
def anchoredPfxWs (pat : LC) (s : LC) : Bool :=
  pat.isPrefixOf (lowerL s) && allWs ((lowerL s).drop pat.length)

/-- `re.search('^LIT:?\s*$', line, re.I)`: the optional colon is greedy
and deterministic (a leftover colon can never satisfy `\s*$`). -/
def pfxOptColonWs (pat : LC) (s : LC) : Bool :=
  pat.isPrefixOf (lowerL s) &&
  (match (lowerL s).drop pat.length with
   | ':' :: r2 => allWs r2
   | r => allWs r)

/-- `^[-•]\s*$`. -/
def bulletWs : LC → Bool
  | c :: rest => (c == '-' || c == '•') && allWs rest
  | [] => false

/-- `PayPalPDFParser._is_junk_line`: `any(re.search(p, line, re.I) ...)`
over `JUNK_PATTERNS`.  The first four patterns are unanchored, so they
are substring tests on the lowered line (`.*` always matches). -/
def is_junk_line (line : LC) : Bool :=
  isSubL "paypal balance".toList (lowerL line) ||
  isSubL "id:".toList (lowerL line) ||
  isSubL "individual id:".toList (lowerL line) ||
  isSubL "ref id:".toList (lowerL line) ||
  anchoredPfxWs "general paypal debit mastercard".toList line ||
  anchoredPfxWs "preapproved payment bill user payment:".toList line ||
  anchoredPfxWs "general".toList line ||
  pfxOptColonWs "transaction".toList line ||
  pfxOptColonWs "direct deposit".toList line ||
  bulletWs line ||
  allWs line

/-- `re.sub(r'^[-•]\s*', '', s)`: drop one leading bullet/dash and the
whitespace after it. -/
def stripBullet : LC → LC
  | c :: rest =>
    if c == '-' || c == '•' then rest.dropWhile pySpace else c :: rest
  | [] => []

/-- `' '.join(parts).strip()` then `re.sub(r'\s+', ' ', ...)`
(`PayPalPDFParser._clean_description`). -/
def clean_description (ps : List LC) : LC :=
  collapseWs (pyStripWs (joinSp ps))

/-- the loop state of `PayPalPDFParser.parse`: emitted transactions, the
open transaction, and its buffered description fragments. -/
structure PState where
  done : List Transaction
  cur : Option Transaction
  parts : List LC
deriving DecidableEq, Repr

/-- finalize the open transaction (assemble its description) and append
it to the output. -/
def finishCur (st : PState) : List Transaction :=
  match st.cur with
  | some t =>
    st.done ++ [⟨t.date, clean_description st.parts, t.currency, t.amount,
                t.fees, t.total⟩]
  | none => st.done

/-- the transaction opened by a date-anchored line (lines 247-256 of the
source): date set, amount/total from the rightmost amount token of the
stripped remainder when one exists, else the defaults. -/
def anchorCur (d rRaw : LC) : Transaction :=
  let ams := findallAm false (pyStripWs rRaw)
  if ams = [] then newTx d
  else
    let a := remCommas (ams.getLastD [])
    ⟨d, [], "USD".toList, a, "0.00".toList, a⟩

/-- `desc_parts = [rest] if rest else []` for an anchor line. -/
def anchorParts (rRaw : LC) : List LC :=
  if pyStripWs rRaw = [] then [] else [pyStripWs rRaw]

/-- one iteration of the line loop of `PayPalPDFParser.parse`.  On the
continuation path the guard `amounts and not current_transaction.amount`
tests Python truthiness of the amount string: it is true only when the
string is empty, and the dataclass default is `"0.00"`. -/
def step (st : PState) (line : LC) : PState :=
  if is_junk_line line then st
  else
    match dateMatchL line with
    | some (d, restRaw) =>
      ⟨finishCur st, some (anchorCur d restRaw), anchorParts restRaw⟩
    | none =>
      match st.cur with
      | some t =>
        let ams := findallAm false line
        let t2 :=
          if ams ≠ [] ∧ t.amount = [] then
            let a := remCommas (ams.getLastD [])
            ⟨t.date, t.description, t.currency, a, t.fees, a⟩
          else t
        let ct := stripBullet (pyStripWs (subAm false line))
        let parts2 := if ct ≠ [] ∧ ct.length > 2 then st.parts ++ [ct] else st.parts
        ⟨st.done, some t2, parts2⟩
      | none => st

/-- the line loop plus the final flush of `PayPalPDFParser.parse`. -/
def parseLines (lines : List LC) : List Transaction :=
  finishCur (lines.foldl step ⟨[], none, []⟩)

/-- `[line.strip() for line in ... if line.strip()]`. -/
def prepLines (raw : List LC) : List LC :=
  (raw.map pyStripWs).filter (fun l => l ≠ [])

/-- `PayPalPDFParser.parse` on the text lines extracted from the
document (page extraction is an external collaborator). -/
def parse (raw : List LC) : List Transaction := parseLines (prepLines raw)

/-- the transaction produced by a date-anchored line with date `d` and
raw remainder `rRaw`, once finalized: built from its own line only. -/
def anchorTx (d rRaw : LC) : Transaction :=
  let rest := pyStripWs rRaw
  let ams := findallAm false rest
  let a := if ams = [] then "0.00".toList else remCommas (ams.getLastD [])
  ⟨d, clean_description (if rest = [] then [] else [rest]), "USD".toList,
   a, "0.00".toList, a⟩

/-- `c` carries a maximal score among the scored chunks `l` (used to
state the tie-breaking contract of claim C7). -/
def isMaxScore (l : List (Int × LC)) (c : Int × LC) : Bool :=
  decide (∀ q ∈ l, q.1 ≤ c.1)

/-- the per-transaction invariant of claim C9. -/
def TxOK (t : Transaction) : Prop :=
  t.total = t.amount ∧ t.fees = "0.00".toList

/-- the loop-state invariant of claim C9. -/
def StOK (st : PState) : Prop :=
  (∀ t ∈ st.done, TxOK t) ∧ ∀ t, st.cur = some t → TxOK t

/-! ## Helper lemmas -/

lemma finishCur_shape (st : PState) : ∃ e, finishCur st = st.done ++ e := by
  unfold finishCur
  cases st.cur with
  | none => exact ⟨[], by simp⟩
  | some t => exact ⟨_, rfl⟩

lemma step_done_mono (st : PState) (l : LC) :
    ∃ e, (step st l).done = st.done ++ e := by
  unfold step
  by_cases hj : is_junk_line l
  · exact ⟨[], by simp [hj]⟩
  · simp only [hj, Bool.false_eq_true, if_false]
    cases hd : dateMatchL l with
    | some p =>
      obtain ⟨e, he⟩ := finishCur_shape st
      exact ⟨e, he⟩
    | none =>
      cases hc : st.cur with
      | some t => exact ⟨[], by simp⟩
      | none => exact ⟨[], by simp⟩

lemma foldl_done_mono (lines : List LC) :
    ∀ st : PState, ∃ e, (List.foldl step st lines).done = st.done ++ e := by
  induction lines with
  | nil => intro st; exact ⟨[], by simp⟩
  | cons l ls ih =>
    intro st
    obtain ⟨e1, h1⟩ := step_done_mono st l
    obtain ⟨e2, h2⟩ := ih (step st l)
    exact ⟨e1 ++ e2, by rw [List.foldl_cons, h2, h1, List.append_assoc]⟩

lemma finishCur_ok (st : PState) (h : StOK st) : ∀ t ∈ finishCur st, TxOK t := by
  unfold finishCur
  cases hc : st.cur with
  | none => exact h.1
  | some t =>
    intro u hu
    rcases List.mem_append.mp hu with hu1 | hu2
    · exact h.1 u hu1
    · have ht : TxOK t := h.2 t hc
      have : u = ⟨t.date, clean_description st.parts, t.currency, t.amount,
                  t.fees, t.total⟩ := by simpa using hu2
      subst this
      exact ⟨ht.1, ht.2⟩

lemma anchorCur_ok (d r : LC) : TxOK (anchorCur d r) := by
  unfold anchorCur
  by_cases hA : findallAm false (pyStripWs r) = [] <;>
    simp [hA, newTx, TxOK]

lemma step_ok (st : PState) (l : LC) (h : StOK st) : StOK (step st l) := by
  unfold step
  by_cases hj : is_junk_line l
  · simpa [hj] using h
  · simp only [hj, Bool.false_eq_true, if_false]
    cases hd : dateMatchL l with
    | some p =>
      refine ⟨finishCur_ok st h, ?_⟩
      intro t ht
      obtain rfl : anchorCur p.1 p.2 = t := by simpa using ht
      exact anchorCur_ok p.1 p.2
    | none =>
      cases hc : st.cur with
      | some t =>
        refine ⟨h.1, ?_⟩
        intro u hu
        have ht : TxOK t := h.2 t hc
        by_cases hAm : findallAm false l ≠ [] ∧ t.amount = []
        · obtain rfl :
            (⟨t.date, t.description, t.currency,
              remCommas ((findallAm false l).getLastD []), t.fees,
              remCommas ((findallAm false l).getLastD [])⟩ : Transaction) = u := by
            simpa [hAm] using hu
          exact ⟨rfl, ht.2⟩
        · obtain rfl : t = u := by simpa [hAm] using hu
          exact ht
      | none => simpa using h

lemma foldl_ok (lines : List LC) :
    ∀ st : PState, StOK st → StOK (List.foldl step st lines) := by
  induction lines with
  | nil => intro st h; simpa using h
  | cons l ls ih => intro st h; exact ih (step st l) (step_ok st l h)

lemma prep_cons (l : LC) (ls : List LC) (h1 : pyStripWs l = l) (h2 : l ≠ []) :
    prepLines (l :: ls) = l :: prepLines ls := by
  simp [prepLines, h1, h2]

lemma prep_nil : prepLines [] = [] := rfl

lemma step_anchor (st : PState) (l d r : LC)
    (hj : is_junk_line l = false) (hd : dateMatchL l = some (d, r)) :
    step st l = ⟨finishCur st, some (anchorCur d r), anchorParts r⟩ := by
  simp [step, hj, hd]

lemma finish_anchorCur (done : List Transaction) (d r : LC) :
    finishCur ⟨done, some (anchorCur d r), anchorParts r⟩
      = done ++ [anchorTx d r] := by
  unfold finishCur anchorCur anchorParts anchorTx
  by_cases hA : findallAm false (pyStripWs r) = [] <;> simp [hA, newTx]

/-! ## C1 -/

/-- C1: the spec's end-to-end scenario B claims that the continuation
line "1500.00" sets amount = total = "1500.00"; the code cannot: the
guard `amounts and not current_transaction.amount` is always false
because the amount field defaults to the truthy string "0.00", so the
parsed transaction keeps amount = total = "0.00". -/
theorem C1_continuation_amount_never_set :
    parse [ "12/03/2025".toList,
            "Direct Deposit: ACME PAYROLL SERVICES LLC".toList,
            "1500.00".toList ]
      = [⟨"12/03/2025".toList,
          "Direct Deposit: ACME PAYROLL SERVICES LLC".toList,
          "USD".toList, "0.00".toList, "0.00".toList, "0.00".toList⟩] := by
  decide

/-! ## C10 -/

/-- C10: every line containing the substring "id:" case-insensitively is
junk (the unanchored pattern `ID:.*` under `re.I`), junk lines leave the
parser state untouched (so they never start or extend a transaction),
and in particular the date-anchored line "12/01/2025 Paid: rent" is
junk. -/
theorem C10_id_substring_is_junk :
    (∀ l : LC, isSubL "id:".toList (lowerL l) = true → is_junk_line l = true) ∧
    (∀ (st : PState) (l : LC), is_junk_line l = true → step st l = st) ∧
    is_junk_line "12/01/2025 Paid: rent".toList = true := by
  refine ⟨?_, ?_, by decide⟩
  · intro l h
    rw [show ("id:".toList : LC) = ['i', 'd', ':'] from rfl] at h
    simp [is_junk_line, h]
  · intro st l h
    simp [step, h]

/-- witness for C10 at a concrete line and state. -/
theorem C10_id_substring_is_junk_witness :
    is_junk_line "Order id: 55".toList = true ∧
    step ⟨[], none, []⟩ "Order id: 55".toList = ⟨[], none, []⟩ := by
  refine ⟨C10_id_substring_is_junk.1 _ (by decide), ?_⟩
  exact C10_id_substring_is_junk.2.1 _ _ (C10_id_substring_is_junk.1 _ (by decide))

/-! ## C8 -/

/-- C8: the code's chunk scorer agrees with the specification's table on
every chunk: reject below length 3, else sum the length bonus (+5 for
length ≥ 11, +2 for 6-10), +3 for a leading uppercase, +4 for at least 3
uppercase letters, +6 for a location shape, +3 for a merchant-like
token, and -2 per noise keyword word. -/
theorem C8_score_matches_table (chunk : LC) : score_chunk chunk = score_spec chunk := by
  unfold score_chunk score_spec
  by_cases h1 : chunk.length > 10
  · have hA : ¬ chunk.length < 3 := by omega
    have hB : chunk.length ≥ 11 := by omega
    have hC : ¬ (6 ≤ chunk.length ∧ chunk.length ≤ 10) := by omega
    simp only [if_pos h1, if_neg hA, if_pos hB, if_neg hC]
    ring
  · by_cases h2 : chunk.length > 5
    · have hA : ¬ chunk.length < 3 := by omega
      have hB : ¬ chunk.length ≥ 11 := by omega
      have hC : 6 ≤ chunk.length ∧ chunk.length ≤ 10 := by omega
      simp only [if_neg h1, if_pos h2, if_neg hA, if_neg hB, if_pos hC]
      ring
    · by_cases h3 : chunk.length < 3
      · simp only [if_neg h1, if_neg h2, if_pos h3]
      · have hB : ¬ chunk.length ≥ 11 := by omega
        have hC : ¬ (6 ≤ chunk.length ∧ chunk.length ≤ 10) := by omega
        simp only [if_neg h1, if_neg h2, if_neg h3, if_neg hB, if_neg hC]
        ring

/-! ## C9 -/

/-- C9: every transaction the parser emits has total equal to amount and
fees equal to the default "0.00": both default to "0.00" and every
assignment to the amount also assigns the same value to the total, while
nothing ever writes the fees field. -/
theorem C9_total_eq_amount_fees_default :
    ∀ (raw : List LC) (t : Transaction), t ∈ parse raw →
      t.total = t.amount ∧ t.fees = "0.00".toList := by
  intro raw t ht
  have h0 : StOK ⟨[], none, []⟩ := ⟨by simp, by intro t h; cases h⟩
  have hf : StOK (List.foldl step ⟨[], none, []⟩ (prepLines raw)) :=
    foldl_ok (prepLines raw) _ h0
  exact finishCur_ok _ hf t ht

/-- witness for C9 on a concrete parse. -/
theorem C9_total_eq_amount_fees_default_witness :
    (⟨"12/01/2025".toList, "Lunch 5.00".toList, "USD".toList, "5.00".toList,
      "0.00".toList, "5.00".toList⟩ : Transaction)
        ∈ parse ["12/01/2025 Lunch 5.00".toList] ∧
    ("5.00".toList : LC) = "5.00".toList ∧ ("0.00".toList : LC) = "0.00".toList := by
  refine ⟨?_, ?_, rfl⟩
  · decide
  · exact (C9_total_eq_amount_fees_default ["12/01/2025 Lunch 5.00".toList]
      ⟨"12/01/2025".toList, "Lunch 5.00".toList, "USD".toList, "5.00".toList,
       "0.00".toList, "5.00".toList⟩ (by decide)).1

/-! ## C5 -/

/-- C5: on a date-anchored line whose remainder contains amount tokens,
the parser selects the rightmost (last non-overlapping) match, commas
stripped, as the transaction's amount. -/
theorem C5_rightmost_amount_wins :
    ∀ l d r : LC,
      pyStripWs l = l → l ≠ [] → is_junk_line l = false →
      dateMatchL l = some (d, r) →
      findallAm false (pyStripWs r) ≠ [] →
      parse [l] = [anchorTx d r] ∧
      (anchorTx d r).amount
        = remCommas ((findallAm false (pyStripWs r)).getLastD []) := by
  intro l d r h1 h2 hj hd hA
  constructor
  · unfold parse
    rw [prep_cons l [] h1 h2, prep_nil]
    unfold parseLines
    rw [List.foldl_cons, List.foldl_nil, step_anchor _ l d r hj hd]
    have hfin : (⟨finishCur ⟨[], none, []⟩, some (anchorCur d r), anchorParts r⟩ : PState)
        = ⟨[], some (anchorCur d r), anchorParts r⟩ := rfl
    rw [hfin, finish_anchorCur]
    simp
  · unfold anchorTx
    simp [hA]

/-- witness for C5: the line "Fee 2.50 Total 19.99" as the remainder of a
date anchor yields amount "19.99", not the earlier "2.50". -/
theorem C5_rightmost_amount_wins_witness :
    parse ["12/07/2025 Fee 2.50 Total 19.99".toList]
      = [anchorTx "12/07/2025".toList " Fee 2.50 Total 19.99".toList] ∧
    (anchorTx "12/07/2025".toList " Fee 2.50 Total 19.99".toList).amount
      = "19.99".toList := by
  have h := C5_rightmost_amount_wins "12/07/2025 Fee 2.50 Total 19.99".toList
    "12/07/2025".toList " Fee 2.50 Total 19.99".toList
    (by decide) (by decide) (by decide) (by decide) (by decide)
  refine ⟨h.1, ?_⟩
  rw [h.2]
  decide

/-! ## C6 -/

/-- C6: two consecutive non-junk date-anchored lines produce two separate
transactions, each built from its own anchor line's data only; and once a
transaction is finalized it stays unchanged at its position in the
output, whatever lines follow. -/
theorem C6_two_anchors_two_transactions :
    ∀ (l1 l2 d1 r1 d2 r2 : LC) (rest : List LC),
      pyStripWs l1 = l1 → l1 ≠ [] → pyStripWs l2 = l2 → l2 ≠ [] →
      is_junk_line l1 = false → dateMatchL l1 = some (d1, r1) →
      is_junk_line l2 = false → dateMatchL l2 = some (d2, r2) →
      parse [l1, l2] = [anchorTx d1 r1, anchorTx d2 r2] ∧
      (parse (l1 :: l2 :: rest)).head? = some (anchorTx d1 r1) := by
  intro l1 l2 d1 r1 d2 r2 rest hs1 hn1 hs2 hn2 hj1 hd1 hj2 hd2
  have hst1 : step ⟨[], none, []⟩ l1 = ⟨[], some (anchorCur d1 r1), anchorParts r1⟩ := by
    rw [step_anchor _ l1 d1 r1 hj1 hd1]
    rfl
  have hst2 : step ⟨[], some (anchorCur d1 r1), anchorParts r1⟩ l2
      = ⟨[anchorTx d1 r1], some (anchorCur d2 r2), anchorParts r2⟩ := by
    rw [step_anchor _ l2 d2 r2 hj2 hd2, finish_anchorCur]
    rfl
  constructor
  · unfold parse
    rw [prep_cons l1 [l2] hs1 hn1, prep_cons l2 [] hs2 hn2, prep_nil]
    unfold parseLines
    rw [List.foldl_cons, hst1, List.foldl_cons, hst2, List.foldl_nil,
        finish_anchorCur]
    simp
  · unfold parse
    rw [prep_cons l1 (l2 :: rest) hs1 hn1, prep_cons l2 rest hs2 hn2]
    unfold parseLines
    rw [List.foldl_cons, hst1, List.foldl_cons, hst2]
    obtain ⟨e, he⟩ := foldl_done_mono (prepLines rest)
      ⟨[anchorTx d1 r1], some (anchorCur d2 r2), anchorParts r2⟩
    obtain ⟨e2, he2⟩ := finishCur_shape
      (List.foldl step ⟨[anchorTx d1 r1], some (anchorCur d2 r2), anchorParts r2⟩
        (prepLines rest))
    rw [he2, he]
    simp

/-- witness for C6 at two concrete anchor lines. -/
theorem C6_two_anchors_two_transactions_witness :
    parse ["12/01/2025 Coffee Shop".toList, "12/02/2025 Book Store".toList]
      = [anchorTx "12/01/2025".toList " Coffee Shop".toList,
         anchorTx "12/02/2025".toList " Book Store".toList] ∧
    (parse ["12/01/2025 Coffee Shop".toList, "12/02/2025 Book Store".toList,
            "Extra line".toList]).head?
      = some (anchorTx "12/01/2025".toList " Coffee Shop".toList) := by
  exact C6_two_anchors_two_transactions
    "12/01/2025 Coffee Shop".toList "12/02/2025 Book Store".toList
    "12/01/2025".toList " Coffee Shop".toList
    "12/02/2025".toList " Book Store".toList
    ["Extra line".toList]
    (by decide) (by decide) (by decide) (by decide)
    (by decide) (by decide) (by decide) (by decide)

/-! ## C7: stable sorting lemmas -/

lemma mem_insDesc (p q : Int × LC) (l : List (Int × LC)) :
    p ∈ insDesc q l → p = q ∨ p ∈ l := by
  induction l with
  | nil => intro h; simpa [insDesc] using h
  | cons a as ih =>
    intro h
    unfold insDesc at h
    by_cases hq : q.1 ≥ a.1
    · rw [if_pos hq] at h
      rcases List.mem_cons.mp h with h1 | h2
      · exact Or.inl h1
      · exact Or.inr h2
    · rw [if_neg hq] at h
      rcases List.mem_cons.mp h with h1 | h2
      · exact Or.inr (h1 ▸ List.mem_cons_self a as)
      · rcases ih h2 with h3 | h4
        · exact Or.inl h3
        · exact Or.inr (List.mem_cons_of_mem a h4)

lemma mem_sortDesc (p : Int × LC) (l : List (Int × LC)) :
    p ∈ sortDesc l → p ∈ l := by
  induction l with
  | nil => intro h; simp [sortDesc] at h
  | cons a as ih =>
    intro h
    have h' : p ∈ insDesc a (sortDesc as) := h
    rcases mem_insDesc p a (sortDesc as) h' with h1 | h2
    · exact h1 ▸ List.mem_cons_self a as
    · exact List.mem_cons_of_mem a (ih h2)

lemma insDesc_length (q : Int × LC) (l : List (Int × LC)) :
    (insDesc q l).length = l.length + 1 := by
  induction l with
  | nil => rfl
  | cons a as ih =>
    unfold insDesc
    by_cases hq : q.1 ≥ a.1
    · simp [hq]
    · simp [hq, ih]

lemma sortDesc_length (l : List (Int × LC)) :
    (sortDesc l).length = l.length := by
  induction l with
  | nil => rfl
  | cons a as ih =>
    show (insDesc a (sortDesc as)).length = as.length + 1
    rw [insDesc_length, ih]

lemma sortDesc_ne_nil (l : List (Int × LC)) (h : l ≠ []) : sortDesc l ≠ [] := by
  intro hc
  have := sortDesc_length l
  rw [hc] at this
  exact h (List.length_eq_zero.mp this.symm)

lemma find?_congr (l : List (Int × LC)) (p q : Int × LC → Bool)
    (h : ∀ a ∈ l, p a = q a) : l.find? p = l.find? q := by
  induction l with
  | nil => rfl
  | cons a as ih =>
    have ha : p a = q a := h a (List.mem_cons_self a as)
    cases hpa : q a with
    | true =>
      rw [List.find?_cons_of_pos _ (ha.trans hpa), List.find?_cons_of_pos _ hpa]
    | false =>
      rw [List.find?_cons_of_neg _ (by simp [ha, hpa]),
          List.find?_cons_of_neg _ (by simp [hpa])]
      exact ih fun b hb => h b (List.mem_cons_of_mem a hb)

/-- the head of the stable descending sort is the first element of the
list whose score is greatest. -/
lemma sortDesc_head? (l : List (Int × LC)) :
    (sortDesc l).head? = l.find? (isMaxScore l) := by
  induction l with
  | nil => rfl
  | cons x xs ih =>
    by_cases hxs : xs = []
    · subst hxs
      have hx : (∀ q ∈ [x], q.1 ≤ x.1) := by
        intro q hq
        rw [List.mem_singleton.mp hq]
      have hpx : isMaxScore [x] x = true := decide_eq_true hx
      rw [List.find?_cons_of_pos _ hpx]
      rfl
    · obtain ⟨h, t, hht⟩ : ∃ h t, sortDesc xs = h :: t := by
        cases hs : sortDesc xs with
        | nil => exact absurd hs (sortDesc_ne_nil xs hxs)
        | cons a b => exact ⟨a, b, rfl⟩
      have ihh : xs.find? (isMaxScore xs) = some h := by
        rw [← ih, hht]
        rfl
      have hmem : h ∈ xs := List.mem_of_find?_eq_some ihh
      have hps : isMaxScore xs h = true := List.find?_some ihh
      have hmax : ∀ q ∈ xs, q.1 ≤ h.1 := of_decide_eq_true hps
      show (insDesc x (sortDesc xs)).head? = _
      rw [hht]
      by_cases hx : x.1 ≥ h.1
      · have h1 : insDesc x (h :: t) = x :: h :: t := by simp [insDesc, hx]
        have hpx : (∀ q ∈ x :: xs, q.1 ≤ x.1) := by
          intro q hq
          rcases List.mem_cons.mp hq with h2 | h3
          · rw [h2]
          · exact le_trans (hmax q h3) hx
        have hpx2 : isMaxScore (x :: xs) x = true := decide_eq_true hpx
        rw [h1, List.find?_cons_of_pos _ hpx2]
        rfl
      · have hxh : x.1 < h.1 := lt_of_not_ge hx
        have h1 : insDesc x (h :: t) = h :: insDesc x t := by simp [insDesc, hx]
        have hpxf : ¬ (∀ q ∈ x :: xs, q.1 ≤ x.1) := by
          intro hall
          exact absurd (hall h (List.mem_cons_of_mem x hmem)) (not_le.mpr hxh)
        have hpxf2 : ¬ isMaxScore (x :: xs) x = true := by
          unfold isMaxScore
          simp only [decide_eq_true_eq]
          exact hpxf
        rw [h1, List.find?_cons_of_neg _ hpxf2]
        have hcongr : xs.find? (isMaxScore (x :: xs)) = xs.find? (isMaxScore xs) := by
          apply find?_congr
          intro a ha
          unfold isMaxScore
          apply decide_eq_decide.mpr
          constructor
          · intro hall q hq
            exact hall q (List.mem_cons_of_mem x hq)
          · intro hall q hq
            rcases List.mem_cons.mp hq with h2 | h3
            · rw [h2]
              exact le_trans (le_of_lt hxh) (hall h hmem)
            · exact hall q h3
        rw [hcongr, ihh]
        rfl

/-- C7: in the chunk-scoring fallback, when several surviving chunks tie
for the highest score the earliest-occurring chunk of the description
wins: the extractor returns the first scored candidate carrying a
maximal score (the source relies on the stability of Python's
`list.sort`, which the embedding's insertion sort mirrors). -/
theorem C7_tie_break_earliest_chunk :
    ∀ (d : LC) (p : Int × LC),
      (scoredChunks d).find? (isMaxScore (scoredChunks d)) = some p →
      extract_intelligent d = p.2 := by
  intro d p h
  have hh := sortDesc_head? (scoredChunks d)
  rw [h] at hh
  unfold extract_intelligent
  cases hs : sortDesc (scoredChunks d) with
  | nil =>
    rw [hs] at hh
    cases hh
  | cons a t =>
    rw [hs] at hh
    rw [List.head?_cons] at hh
    obtain rfl := Option.some.inj hh
    rfl

/-- witness for C7: "Abcdef" and "Qwerty" both score 5; the earlier
chunk is returned. -/
theorem C7_tie_break_earliest_chunk_witness :
    (scoredChunks "Abcdef  Qwerty".toList).find?
        (isMaxScore (scoredChunks "Abcdef  Qwerty".toList))
      = some (5, "Abcdef".toList) ∧
    extract_intelligent "Abcdef  Qwerty".toList = "Abcdef".toList := by
  refine ⟨by decide, ?_⟩
  exact C7_tie_break_earliest_chunk "Abcdef  Qwerty".toList
    (5, "Abcdef".toList) (by decide)

/-! ## C3 -/

lemma afterPfx_some_ne (ps : List LC) :
    ∀ (text c : LC), afterPfxLoop ps text = some c → c ≠ [] := by
  induction ps with
  | nil => intro text c h; cases h
  | cons p ps ih =>
    intro text c h
    unfold afterPfxLoop at h
    by_cases hc : containsCI text p
    · rw [if_pos hc] at h
      by_cases hcl : clean_text (pyStripWs
          (text.drop (idxSub (lowerL p) (lowerL text) + p.length))) = []
      · rw [if_pos hcl] at h
        exact ih text c h
      · rw [if_neg hcl] at h
        obtain rfl := Option.some.inj h
        exact hcl
    · rw [if_neg hc] at h
      exact ih text c h

lemma scored_snd_ne (d : LC) (p : Int × LC) (hp : p ∈ scoredChunks d) :
    p.2 ≠ [] := by
  unfold scoredChunks at hp
  rw [List.mem_filterMap] at hp
  obtain ⟨ch, _, hf⟩ := hp
  by_cases hc : clean_text ch = []
  · simp [hc] at hf
  · by_cases hs : score_chunk (clean_text ch) > 0
    · have hf2 : some (score_chunk (clean_text ch), clean_text ch) = some p := by
        rw [← hf]
        simp [hc, hs]
      obtain rfl := Option.some.inj hf2
      exact hc
    · simp [hc, hs] at hf

/-- C3: extraction is total (the Lean embedding is a total function) and
never returns the empty string; an empty or all-whitespace description
yields the sentinel "Unknown". -/
theorem C3_extract_never_empty :
    ∀ d : LC, extract d ≠ [] ∧ (pyStripWs d = [] → extract d = "Unknown".toList) := by
  intro d
  by_cases hg : d = [] ∨ pyStripWs d = []
  · constructor
    · unfold extract
      rw [if_pos hg]
      decide
    · intro _
      unfold extract
      rw [if_pos hg]
  · have hg2 : ¬ pyStripWs d = [] := fun h => hg (Or.inr h)
    constructor
    · unfold extract
      rw [if_neg hg]
      cases hp : extractAfterPfx d with
      | some payee => exact afterPfx_some_ne PAYEE_PFXS d payee hp
      | none =>
        unfold extract_intelligent
        cases hs : sortDesc (scoredChunks d) with
        | cons a t =>
          have ha : a ∈ scoredChunks d :=
            mem_sortDesc a _ (hs ▸ List.mem_cons_self a t)
          exact scored_snd_ne d a ha
        | nil =>
          by_cases hf : (clean_text d).take 80 = []
          · rw [if_pos hf]
            decide
          · rw [if_neg hf]
            exact hf
    · intro h
      exact absurd h hg2

/-- witness for C3 at the whitespace-only description of the spec. -/
theorem C3_extract_never_empty_witness :
    extract "   ".toList = "Unknown".toList ∧ extract "   ".toList ≠ [] :=
  ⟨(C3_extract_never_empty "   ".toList).2 (by decide),
   (C3_extract_never_empty "   ".toList).1⟩

/-! ## C2 -/

lemma isPfx_append (p rest : LC) : p.isPrefixOf (p ++ rest) = true := by
  induction p with
  | nil => simp [List.isPrefixOf]
  | cons a as ih => simp [List.isPrefixOf, ih]

lemma isSubL_of_pfx (pat s : LC) (h : pat.isPrefixOf s = true) :
    isSubL pat s = true := by
  cases s with
  | nil =>
    cases pat with
    | nil => rfl
    | cons a as => cases h
  | cons c cs => simp [isSubL, h]

lemma idxSub_zero (pat : LC) (c : Char) (cs : LC)
    (h : pat.isPrefixOf (c :: cs) = true) : idxSub pat (c :: cs) = 0 := by
  simp [idxSub, h]

lemma pyStripWs_cons_sp (l : LC) : pyStripWs (' ' :: l) = pyStripWs l := by
  unfold pyStripWs
  rw [List.dropWhile_cons]
  simp [pySpace]

lemma pyStripWs_ne_nil (c : Char) (cs : LC) (h : pySpace c = false) :
    pyStripWs (c :: cs) ≠ [] := by
  unfold pyStripWs
  rw [List.dropWhile_cons, if_neg (by simp [h])]
  intro hc
  have h1 : ((c :: cs).reverse.dropWhile pySpace) = [] := by
    have := congrArg List.reverse hc
    simpa using this
  have h2 : ∀ x ∈ (c :: cs).reverse, pySpace x := by
    rw [← List.dropWhile_eq_nil_iff]
    exact h1
  have h3 : pySpace c = true := h2 c (by simp)
  rw [h] at h3
  cases h3

/-- C2 counterexample: the claim says every description containing the
substring "Payment to: Acme Corp" extracts to "Acme Corp"; the
description "Payment to: Acme Corp Ltd" contains that substring but
extracts to "Acme Corp Ltd" (the code cleans everything after the
prefix, it does not stop at the claimed payee). -/
theorem C2_counterexample_trailing_text :
    isSubL "Payment to: Acme Corp".toList "Payment to: Acme Corp Ltd".toList = true ∧
    extract "Payment to: Acme Corp Ltd".toList = "Acme Corp Ltd".toList ∧
    "Acme Corp Ltd".toList ≠ "Acme Corp".toList := by
  refine ⟨by decide, by decide, by decide⟩

/-- C2 (amended): for a description of the form "Payment to: " ++ name in
which none of the higher-priority prefixes "Transaction:",
"Direct Deposit:", "PreApproved Payment Bill User Payment:" occurs
(case-insensitively) and whose cleaned name is non-empty, extraction
returns the cleaned text after the prefix — the prefix path wins
unconditionally over chunk scoring; it returns exactly "Acme Corp" only
when the text after the prefix cleans to exactly that. -/
theorem C2_amended_prefix_extraction :
    ∀ name : LC,
      containsCI ("Payment to: ".toList ++ name) "Transaction:".toList = false →
      containsCI ("Payment to: ".toList ++ name) "Direct Deposit:".toList = false →
      containsCI ("Payment to: ".toList ++ name)
        "PreApproved Payment Bill User Payment:".toList = false →
      clean_text (pyStripWs name) ≠ [] →
      extract ("Payment to: ".toList ++ name) = clean_text (pyStripWs name) := by
  intro name h1 h2 h3 h4
  have hl : lowerL ("Payment to: ".toList ++ name)
      = "payment to: ".toList ++ lowerL name := by
    unfold lowerL
    rw [List.map_append]
    rfl
  have hpfx : ("payment to:".toList : LC).isPrefixOf
      ("payment to: ".toList ++ lowerL name) = true :=
    isPfx_append "payment to:".toList (' ' :: lowerL name)
  have hc4 : containsCI ("Payment to: ".toList ++ name) "Payment to:".toList = true := by
    unfold containsCI
    rw [hl, show lowerL "Payment to:".toList = "payment to:".toList from rfl]
    exact isSubL_of_pfx _ _ hpfx
  have hidx : idxSub (lowerL "Payment to:".toList)
      (lowerL ("Payment to: ".toList ++ name)) = 0 := by
    rw [hl, show lowerL "Payment to:".toList = "payment to:".toList from rfl]
    exact idxSub_zero "payment to:".toList 'p'
      ("ayment to: ".toList ++ lowerL name) hpfx
  have hdrop : ("Payment to: ".toList ++ name).drop
      (idxSub (lowerL "Payment to:".toList)
        (lowerL ("Payment to: ".toList ++ name))
        + ("Payment to:".toList : LC).length) = ' ' :: name := by
    rw [hidx]
    rfl
  have hne : ("Payment to: ".toList : LC) ++ name ≠ [] := by
    simp [show ("Payment to: ".toList : LC) ++ name
      = 'P' :: ("ayment to: ".toList ++ name) from rfl]
  have hstrip : pyStripWs ("Payment to: ".toList ++ name) ≠ [] := by
    rw [show ("Payment to: ".toList : LC) ++ name
      = 'P' :: ("ayment to: ".toList ++ name) from rfl]
    exact pyStripWs_ne_nil 'P' _ (by decide)
  have hloop : extractAfterPfx ("Payment to: ".toList ++ name)
      = some (clean_text (pyStripWs name)) := by
    unfold extractAfterPfx PAYEE_PFXS
    simp only [afterPfxLoop, h1, h2, h3, hc4, Bool.false_eq_true, if_false,
      if_true]
    rw [hdrop, pyStripWs_cons_sp, if_neg h4]
  unfold extract
  rw [if_neg (not_or.mpr ⟨hne, hstrip⟩), hloop]

/-- witness for the amended C2 at name = "Acme Corp". -/
theorem C2_amended_prefix_extraction_witness :
    extract ("Payment to: ".toList ++ "Acme Corp".toList) = "Acme Corp".toList :=
  (C2_amended_prefix_extraction "Acme Corp".toList
    (by decide) (by decide) (by decide) (by decide)).trans (by decide)

/-! ## C4 -/

lemma pySplitAux_wf (s : LC) :
    ∀ acc : LC, (∀ c ∈ acc, pySpace c = false) →
      ∀ w ∈ pySplitAux s acc, w ≠ [] ∧ ∀ c ∈ w, pySpace c = false := by
  induction s with
  | nil =>
    intro acc hacc w hw
    unfold pySplitAux at hw
    by_cases h : acc = []
    · simp [h] at hw
    · rw [if_neg h] at hw
      have hwa : w = acc.reverse := by simpa using hw
      subst hwa
      refine ⟨by simpa using h, ?_⟩
      intro c hc
      exact hacc c (List.mem_reverse.mp hc)
  | cons a as ih =>
    intro acc hacc w hw
    unfold pySplitAux at hw
    by_cases hsp : pySpace a = true
    · rw [if_pos hsp] at hw
      by_cases h : acc = []
      · rw [if_pos h] at hw
        exact ih [] (by simp) w hw
      · rw [if_neg h] at hw
        rcases List.mem_cons.mp hw with h1 | h2
        · subst h1
          exact ⟨by simpa using h, fun c hc => hacc c (List.mem_reverse.mp hc)⟩
        · exact ih [] (by simp) w h2
    · rw [if_neg hsp] at hw
      refine ih (a :: acc) ?_ w hw
      intro c hc
      rcases List.mem_cons.mp hc with h1 | h2
      · subst h1
        exact Bool.not_eq_true _ ▸ hsp
      · exact hacc c h2

lemma pySplit_wf (s : LC) :
    ∀ w ∈ pySplit s, w ≠ [] ∧ ∀ c ∈ w, pySpace c = false :=
  pySplitAux_wf s [] (by simp)

lemma pySplitAux_skip (w : LC) :
    ∀ (cs acc : LC), (∀ c ∈ w, pySpace c = false) →
      pySplitAux (w ++ cs) acc = pySplitAux cs (w.reverse ++ acc) := by
  induction w with
  | nil => intro cs acc _; simp
  | cons a w' ih =>
    intro cs acc h
    have ha : pySpace a = false := h a (List.mem_cons_self a w')
    show pySplitAux (a :: (w' ++ cs)) acc = _
    simp only [pySplitAux]
    rw [if_neg (by simp [ha])]
    rw [ih cs (a :: acc) (fun c hc => h c (List.mem_cons_of_mem _ hc))]
    rw [List.reverse_cons, List.append_assoc]
    rfl

lemma pySplit_joinSp : ∀ ws : List LC,
    (∀ w ∈ ws, w ≠ [] ∧ ∀ c ∈ w, pySpace c = false) →
    pySplit (joinSp ws) = ws := by
  intro ws
  induction ws with
  | nil => intro _; rfl
  | cons w ws' ih =>
    intro h
    obtain ⟨hwne, hwsf⟩ := h w (List.mem_cons_self w ws')
    cases ws' with
    | nil =>
      have h0 : pySplit (w ++ []) = [w] := by
        unfold pySplit
        rw [pySplitAux_skip w [] [] hwsf]
        simp only [pySplitAux]
        rw [if_neg (by simpa using hwne)]
        simp
      rw [List.append_nil] at h0
      exact h0
    | cons v ws'' =>
      show pySplit (w ++ ' ' :: joinSp (v :: ws'')) = w :: v :: ws''
      unfold pySplit
      rw [pySplitAux_skip w (' ' :: joinSp (v :: ws'')) [] hwsf]
      simp only [pySplitAux]
      rw [if_pos (by decide : pySpace ' ' = true),
          if_neg (by simpa using hwne)]
      have hrev : (w.reverse ++ ([] : LC)).reverse = w := by simp
      rw [hrev]
      have ihh : pySplitAux (joinSp (v :: ws'')) [] = v :: ws'' :=
        ih (fun u hu => h u (List.mem_cons_of_mem _ hu))
      rw [ihh]

lemma joinSp_cons_head (c : Char) (cw : LC) (ws : List LC) :
    ∃ t, joinSp ((c :: cw) :: ws) = c :: t := by
  cases ws with
  | nil => exact ⟨cw, rfl⟩
  | cons v ws' => exact ⟨cw ++ ' ' :: joinSp (v :: ws'), rfl⟩

lemma joinSp_rev_head : ∀ ws : List LC,
    (∀ w ∈ ws, w ≠ [] ∧ ∀ c ∈ w, pySpace c = false) → ws ≠ [] →
    ∃ c t, (joinSp ws).reverse = c :: t ∧ pySpace c = false := by
  intro ws
  induction ws with
  | nil => intro _ h; exact absurd rfl h
  | cons w ws' ih =>
    intro h _
    obtain ⟨hwne, hwsf⟩ := h w (List.mem_cons_self w ws')
    cases ws' with
    | nil =>
      obtain ⟨d, t, hdt⟩ : ∃ d t, w.reverse = d :: t := by
        cases hr : w.reverse with
        | nil => exact absurd (by simpa using congrArg List.reverse hr) hwne
        | cons a b => exact ⟨a, b, rfl⟩
      refine ⟨d, t, hdt, ?_⟩
      have hd : d ∈ w := List.mem_reverse.mp (hdt ▸ List.mem_cons_self d t)
      exact hwsf d hd
    | cons v ws'' =>
      obtain ⟨c, t, hct, hc⟩ :=
        ih (fun u hu => h u (List.mem_cons_of_mem _ hu)) (List.cons_ne_nil v ws'')
      refine ⟨c, t ++ ' ' :: w.reverse, ?_, hc⟩
      show (w ++ ' ' :: joinSp (v :: ws'')).reverse = _
      rw [List.reverse_append, List.reverse_cons, hct]
      simp

lemma dropWhile_head_ne (p : Char → Bool) (c : Char) (cs : LC) (h : p c = false) :
    List.dropWhile p (c :: cs) = c :: cs := by
  rw [List.dropWhile_cons, if_neg (by simp [h])]

lemma pyStripWs_joinSp : ∀ ws : List LC,
    (∀ w ∈ ws, w ≠ [] ∧ ∀ c ∈ w, pySpace c = false) →
    pyStripWs (joinSp ws) = joinSp ws := by
  intro ws h
  cases ws with
  | nil => rfl
  | cons w ws' =>
    obtain ⟨hwne, hwsf⟩ := h w (List.mem_cons_self w ws')
    obtain ⟨c, cw, hcw⟩ : ∃ c cw, w = c :: cw := by
      cases w with
      | nil => exact absurd rfl hwne
      | cons a b => exact ⟨a, b, rfl⟩
    subst hcw
    obtain ⟨t, ht⟩ := joinSp_cons_head c cw ws'
    obtain ⟨d, u, hdu, hd⟩ := joinSp_rev_head ((c :: cw) :: ws') h
      (List.cons_ne_nil _ _)
    unfold pyStripWs
    rw [ht]
    rw [dropWhile_head_ne pySpace c t (hwsf c (List.mem_cons_self c cw))]
    rw [← ht, hdu, dropWhile_head_ne pySpace d u hd, ← hdu]
    simp

lemma collapse_word (w : LC) :
    ∀ cs : LC, (∀ c ∈ w, pySpace c = false) →
      collapseWsAux (w ++ cs) false = w ++ collapseWsAux cs false := by
  induction w with
  | nil => intro cs _; rfl
  | cons a w' ih =>
    intro cs h
    have ha : pySpace a = false := h a (List.mem_cons_self a w')
    show collapseWsAux (a :: (w' ++ cs)) false = _
    simp only [collapseWsAux]
    rw [if_neg (by simp [ha])]
    rw [ih cs (fun c hc => h c (List.mem_cons_of_mem _ hc))]
    rw [List.cons_append]

lemma collapseWsAux_flag (l : LC) (c : Char) (cs : LC) (hl : l = c :: cs)
    (h : pySpace c = false) : collapseWsAux l true = collapseWsAux l false := by
  subst hl
  simp only [collapseWsAux]
  rw [if_neg (by simp [h]), if_neg (by simp [h])]

lemma collapseWs_joinSp : ∀ ws : List LC,
    (∀ w ∈ ws, w ≠ [] ∧ ∀ c ∈ w, pySpace c = false) →
    collapseWs (joinSp ws) = joinSp ws := by
  intro ws
  induction ws with
  | nil => intro _; rfl
  | cons w ws' ih =>
    intro h
    obtain ⟨hwne, hwsf⟩ := h w (List.mem_cons_self w ws')
    cases ws' with
    | nil =>
      have h0 : collapseWsAux (w ++ []) false = w ++ collapseWsAux [] false :=
        collapse_word w [] hwsf
      have h1 : collapseWsAux ([] : LC) false = [] := rfl
      rw [h1, List.append_nil] at h0
      exact h0
    | cons v ws'' =>
      have hne2 : v ≠ [] ∧ ∀ c ∈ v, pySpace c = false :=
        h v (List.mem_cons_of_mem _ (List.mem_cons_self v ws''))
      obtain ⟨c, cv, hcv⟩ : ∃ c cv, v = c :: cv := by
        cases v with
        | nil => exact absurd rfl hne2.1
        | cons a b => exact ⟨a, b, rfl⟩
      obtain ⟨t0, ht0⟩ := joinSp_cons_head c cv ws''
      have hct : joinSp (v :: ws'') = c :: t0 := by rw [hcv]; exact ht0
      have hc : pySpace c = false := by
        refine hne2.2 c ?_
        rw [hcv]
        exact List.mem_cons_self c cv
      have ih' : collapseWsAux (joinSp (v :: ws'')) false = joinSp (v :: ws'') :=
        ih (fun u hu => h u (List.mem_cons_of_mem _ hu))
      show collapseWsAux (w ++ ' ' :: joinSp (v :: ws'')) false = _
      rw [collapse_word w (' ' :: joinSp (v :: ws'')) hwsf]
      simp only [collapseWsAux]
      rw [if_pos (by decide : pySpace ' ' = true),
          if_neg (by decide : ¬ false = true)]
      rw [collapseWsAux_flag (joinSp (v :: ws'')) c t0 hct hc, ih']
      rfl

lemma clean_text_eq (z : LC) :
    clean_text z =
      if (pySplit (lowerL (stripPunct (subId (subAm true z))))).all
          (fun w => NOISE.contains w) then []
      else
        collapseWs (pyStripWs (joinSp
          ((pySplit (stripPunct (subId (subAm true z)))).filter
            (fun w => !NOISE.contains (lowerL w))))) := rfl

lemma clean_text_shape (x : LC) :
    clean_text x = [] ∨
    ∃ ws : List LC, (∀ w ∈ ws, w ≠ [] ∧ ∀ c ∈ w, pySpace c = false) ∧
      clean_text x = joinSp ws := by
  rw [clean_text_eq]
  by_cases hall : (pySplit (lowerL (stripPunct (subId (subAm true x))))).all
      (fun w => NOISE.contains w) = true
  · left
    rw [if_pos hall]
  · right
    refine ⟨(pySplit (stripPunct (subId (subAm true x)))).filter
      (fun w => !NOISE.contains (lowerL w)), ?_, ?_⟩
    · intro w hw
      exact pySplit_wf _ w (List.mem_of_mem_filter hw)
    · have hwf : ∀ w ∈ (pySplit (stripPunct (subId (subAm true x)))).filter
          (fun w => !NOISE.contains (lowerL w)), w ≠ [] ∧ ∀ c ∈ w, pySpace c = false :=
        fun w hw => pySplit_wf _ w (List.mem_of_mem_filter hw)
      rw [if_neg hall]
      rw [pyStripWs_joinSp _ hwf, collapseWs_joinSp _ hwf]

/-- C4 counterexample: cleaning is not idempotent.  Cleaning the chunk
"paypal ,Acme" drops the noise word "paypal" and returns ",Acme"; a
second cleaning strips the now-leading comma and returns "Acme". -/
theorem C4_counterexample_not_idempotent :
    clean_text "paypal ,Acme".toList = ",Acme".toList ∧
    clean_text (clean_text "paypal ,Acme".toList) = "Acme".toList ∧
    clean_text (clean_text "paypal ,Acme".toList) ≠ clean_text "paypal ,Acme".toList := by
  refine ⟨by decide, by decide, by decide⟩

/-- C4 (amended): cleaning an already-cleaned chunk returns it unchanged
provided the second pass has nothing left to act on: the cleaned chunk
contains no amount-shaped token and no ID-label token, does not begin or
end with a separator character, and none of its words is a noise
keyword.  Without these provisos idempotence fails (see the
counterexample: dropping a noise word can expose a leading separator). -/
theorem C4_amended_clean_idempotent :
    ∀ x : LC,
      subAm true (clean_text x) = clean_text x →
      subId (clean_text x) = clean_text x →
      stripPunct (clean_text x) = clean_text x →
      (pySplit (lowerL (clean_text x))).all (fun w => NOISE.contains w) = false →
      (pySplit (clean_text x)).filter (fun w => !NOISE.contains (lowerL w))
        = pySplit (clean_text x) →
      clean_text (clean_text x) = clean_text x := by
  intro x h1 h2 h3 h4 h5
  rcases clean_text_shape x with hnil | ⟨ws, hwf, hws⟩
  · rw [hnil] at h4
    exact absurd h4 (by decide)
  · set y := clean_text x with hy
    show clean_text y = y
    rw [clean_text_eq y, h1, h2, h3]
    rw [if_neg (by rw [h4]; exact Bool.false_ne_true)]
    rw [h5, hws, pySplit_joinSp ws hwf, pyStripWs_joinSp ws hwf,
        collapseWs_joinSp ws hwf]

/-- witness for the amended C4 at the already-stable chunk "Acme Corp". -/
theorem C4_amended_clean_idempotent_witness :
    clean_text (clean_text "Acme Corp".toList) = clean_text "Acme Corp".toList :=
  C4_amended_clean_idempotent "Acme Corp".toList
    (by decide) (by decide) (by decide) (by decide) (by decide)

end PayPal2CSV
